import Mathlib

/-!
Shallow embedding of the node-editor flow engine (`src/src/App.tsx`).

The engine state is a graph of typed nodes (`code`, `arithmetic`, `http`,
plus inert default nodes) and directed edges.  `executeFlow` builds an
adjacency map and in-degree map, runs Kahn's algorithm with a FIFO queue to
obtain an execution order, and then executes the ordered nodes one at a
time, writing results back into the node data.

JavaScript numbers are modelled as exact rationals together with the IEEE
special values `Infinity`, `-Infinity` and `NaN` (rounding of finite values
is not modelled; the claims under study only involve exactly representable
values).  External effects (script evaluation via `new Function`, `fetch`)
are modelled by an explicit `Effects` oracle.
-/

namespace NodeEditor

/-- A JavaScript number: a finite value (modelled exactly as a rational)
or one of the IEEE special values produced e.g. by division by zero. -/
inductive JVal where
  | num (q : ℚ)
  | inf
  | negInf
  | nan
deriving DecidableEq, Repr

namespace JVal

/-- JS `+` on numbers (IEEE rules for the special values). -/
def jadd : JVal → JVal → JVal
  | nan, _ => nan
  | _, nan => nan
  | inf, negInf => nan
  | negInf, inf => nan
  | inf, _ => inf
  | _, inf => inf
  | negInf, _ => negInf
  | _, negInf => negInf
  | num a, num b => num (a + b)

/-- JS `-` on numbers (IEEE rules for the special values). -/
def jsub : JVal → JVal → JVal
  | nan, _ => nan
  | _, nan => nan
  | inf, inf => nan
  | negInf, negInf => nan
  | inf, _ => inf
  | negInf, _ => negInf
  | _, inf => negInf
  | _, negInf => inf
  | num a, num b => num (a - b)

/-- JS `*` on numbers (IEEE rules: infinity times zero is NaN, otherwise
signs multiply). -/
def jmul : JVal → JVal → JVal
  | nan, _ => nan
  | _, nan => nan
  | inf, inf => inf
  | inf, negInf => negInf
  | negInf, inf => negInf
  | negInf, negInf => inf
  | inf, num b => if b = 0 then nan else if 0 < b then inf else negInf
  | num a, inf => if a = 0 then nan else if 0 < a then inf else negInf
  | negInf, num b => if b = 0 then nan else if 0 < b then negInf else inf
  | num a, negInf => if a = 0 then nan else if 0 < a then negInf else inf
  | num a, num b => num (a * b)

/-- JS `/` on numbers (IEEE rules: `x/0` is `Infinity`, `-Infinity` or
`NaN` according to the sign of `x`; infinity over infinity is NaN). -/
def jdiv : JVal → JVal → JVal
  | nan, _ => nan
  | _, nan => nan
  | inf, inf => nan
  | inf, negInf => nan
  | negInf, inf => nan
  | negInf, negInf => nan
  | inf, num b => if 0 ≤ b then inf else negInf
  | negInf, num b => if 0 ≤ b then negInf else inf
  | num _, inf => num 0
  | num _, negInf => num 0
  | num a, num b =>
      if b = 0 then (if a = 0 then nan else if 0 < a then inf else negInf)
      else num (a / b)

end JVal

/-- Evaluation of the string `"${a}${op}${b}"` by the `Function`
constructor (App.tsx line 97).  For the four operators offered by the
arithmetic node's operator `select` (App.tsx line 155) this is the JS
binary operation; any other operator string makes the constructed source
fail to parse, i.e. `Function` throws a `SyntaxError` (modelled as
`none`). -/
def jsBinop (op : String) (a b : JVal) : Option JVal :=
  if op = "+" then some (JVal.jadd a b)
  else if op = "-" then some (JVal.jsub a b)
  else if op = "*" then some (JVal.jmul a b)
  else if op = "/" then some (JVal.jdiv a b)
  else none

/-- Type-specific node payload (`data`), exactly the fields constructed by
`addCodeNode` / `addArithmeticNode` / `addHttpNode` (App.tsx lines 35-63)
and the initial default node (line 19).  The `type` tag of a node and the
shape of its `data` are created in lockstep by those constructors, so the
tag is represented by the variant.  Note that no variant carries a
`lastError` field: the source never creates or writes one. -/
inductive NData where
  | codeD (code : String)
  | arithD (a b : JVal) (op : String) (result : Option JVal)
  | httpD (url : String) (method : String) (response : Option String)
  | defaultD
deriving DecidableEq, Repr

/-- A node of the graph.  `position` is opaque to the engine and not
modelled. -/
structure GNode where
  id : String
  data : NData
deriving DecidableEq, Repr

/-- A directed edge between node ids. -/
structure Edge where
  source : String
  target : String
deriving DecidableEq, Repr

/-- The graph held in the `nodes` / `edges` React state. -/
structure Graph where
  nodes : List GNode
  edges : List Edge
deriving DecidableEq, Repr

/-- The ids of the graph's nodes, in declaration order. -/
def nodeIds (g : Graph) : List String :=
  g.nodes.map (·.id)

/-- Every edge endpoint references an existing node id (the data-model
precondition; App.tsx lines 72-73 crash or corrupt the in-degree map on a
dangling endpoint, so the scheduling lemmas assume it). -/
def ValidEdges (g : Graph) : Prop :=
  ∀ e ∈ g.edges, e.source ∈ nodeIds g ∧ e.target ∈ nodeIds g

/-- Pointwise update of a string-keyed map, modelling `m[k] = v` on a JS
object. -/
def upd {α : Type} (m : String → α) (k : String) (v : α) : String → α :=
  fun x => if x = k then v else m x

/-- The adjacency map (App.tsx lines 68-72): `adj[e.source].push(e.target)`
folded over the edges, starting from the empty list for every key. -/
def adjOf (g : Graph) : String → List String :=
  g.edges.foldl (fun m e => upd m e.source (m e.source ++ [e.target])) (fun _ => [])

/-- The initial in-degree map (App.tsx lines 69-73): `indegree[e.target]++`
folded over the edges, starting from `0`.  JS numbers are used as counters,
so the values are integers that the loop later decrements. -/
def indeg0 (g : Graph) : String → Int :=
  g.edges.foldl (fun m e => upd m e.target (m e.target + 1)) (fun _ => 0)

/-- The initial FIFO queue (App.tsx line 76): the ids of all nodes of
in-degree 0, in node-declaration order. -/
def initQueue (g : Graph) : List String :=
  (g.nodes.filter (fun n => indeg0 g n.id == 0)).map (·.id)

/-- One step of the inner edge-relaxation loop (App.tsx lines 81-84):
decrement the target's in-degree and enqueue it when the count reaches 0. -/
def relax (st : (String → Int) × List String) (tgt : String) :
    (String → Int) × List String :=
  let ind := upd st.1 tgt (st.1 tgt - 1)
  if ind tgt = 0 then (ind, st.2 ++ [tgt]) else (ind, st.2)

/-- Kahn's main loop (App.tsx lines 78-85), fuel-indexed to make the
recursion structural; `kahnLoop_terminates` shows that fuel `|nodes|`
always suffices.  Returns the computed order and the final queue. -/
def kahnLoop (adj : String → List String) :
    Nat → List String → (String → Int) → List String → List String × List String
  | 0, q, _, order => (order, q)
  | fuel + 1, q, ind, order =>
    match q with
    | [] => (order, [])
    | id :: rest =>
      let st := (adj id).foldl relax (ind, rest)
      kahnLoop adj fuel st.2 st.1 (order ++ [id])

/-- Run Kahn's algorithm on a graph; first component is the order, second
the final (always empty) queue. -/
def kahnRun (g : Graph) : List String × List String :=
  kahnLoop (adjOf g) g.nodes.length (initQueue g) (indeg0 g) []

/-- The execution order computed by `executeFlow` (App.tsx line 77-85). -/
def kahnOrder (g : Graph) : List String :=
  (kahnRun g).1

/-- Outcome of a `fetch(url, {method}).then(r => r.text())` call: either
the response body as text, or a thrown error's `message`. -/
inductive FetchOutcome where
  | success (body : String)
  | failure (message : String)
deriving DecidableEq, Repr

/-- Oracle for the external effects of node execution: `script c` is
`some msg` when `new Function(c)()` throws an error with message `msg` and
`none` when it runs to completion; `fetch url method` is the outcome of the
network call. -/
structure Effects where
  script : String → Option String
  fetch : String → String → FetchOutcome

/-- Execution of a single node (the `switch` of App.tsx lines 90-105):
* `codeNode` (line 92): `try { new Function(code)() } catch (e) {
  console.error(e) }` — the node's data is unchanged whether or not the
  script throws; a failure is only logged.
* `arithmeticNode` (line 97): `node.data.result = Function(`return
  ${a}${op}${b}`)()` — no try/catch, so a `SyntaxError` from an invalid
  operator propagates and aborts the flow (the `Except.error` case).
* `httpNode` (line 101): on success `response` is set to the body; in the
  `catch` branch `response` is set to the error message (`node.data.response
  = e.message`).
* any other type (line 104): no-op. -/
def execNode (eff : Effects) (n : GNode) : Except String GNode :=
  match n.data with
  | NData.codeD c =>
      match eff.script c with
      | none => Except.ok n
      | some _msg => Except.ok n
  | NData.arithD a b op _r =>
      match jsBinop op a b with
      | some v => Except.ok { n with data := NData.arithD a b op (some v) }
      | none => Except.error "SyntaxError"
  | NData.httpD url method _resp =>
      match eff.fetch url method with
      | FetchOutcome.success body =>
          Except.ok { n with data := NData.httpD url method (some body) }
      | FetchOutcome.failure msg =>
          Except.ok { n with data := NData.httpD url method (some msg) }
  | NData.defaultD => Except.ok n

/-- Replace the node carrying `id` by `n'` (the in-place mutation of the
object shared by `nodeMap` and the `nodes` array). -/
def replaceNode (nodes : List GNode) (id : String) (n' : GNode) : List GNode :=
  nodes.map (fun m => if m.id = id then n' else m)

/-- The execution loop over the scheduled order (App.tsx lines 87-106):
look each id up in `nodeMap`, skip it if absent (`if (!node) continue`),
execute it and write the updated node back. -/
def runOrder (eff : Effects) : List String → List GNode → Except String (List GNode)
  | [], nodes => Except.ok nodes
  | id :: rest, nodes =>
    match nodes.find? (fun n => n.id == id) with
    | none => runOrder eff rest nodes
    | some n =>
      match execNode eff n with
      | Except.error msg => Except.error msg
      | Except.ok n' => runOrder eff rest (replaceNode nodes id n')

/-- `executeFlow` (App.tsx lines 65-108): compute the Kahn order, then
execute the ordered nodes sequentially, returning the updated graph (the
final `setNodes([...nodes])`). -/
def executeFlow (eff : Effects) (g : Graph) : Except String Graph :=
  match runOrder eff (kahnOrder g) g.nodes with
  | Except.ok ns => Except.ok { g with nodes := ns }
  | Except.error msg => Except.error msg

/-- Look a node up by id. -/
def getNode (g : Graph) (v : String) : Option GNode :=
  g.nodes.find? (fun n => n.id == v)

/-- An edge from `u` to `v` exists in the graph. -/
def hasEdge (g : Graph) (u v : String) : Prop :=
  ∃ e ∈ g.edges, e.source = u ∧ e.target = v

/-- The graph has no cycle: no nonempty edge path from a node back to
itself. -/
def Acyclic (g : Graph) : Prop :=
  ∀ v, ¬ Relation.TransGen (hasEdge g) v v

/-- A flow document as parsed from JSON: the `nodes` and `edges` keys may
be absent (or `null`), which `Option` records as `none`. -/
structure Document where
  nodes : Option (List GNode)
  edges : Option (List Edge)

/-- `loadFlow` (App.tsx lines 122-132): `setNodes(flow.nodes || []);
setEdges(flow.edges || [])` — a missing (or null) field is silently
defaulted to the empty collection; no validation is performed and no error
is ever surfaced for a well-formed JSON document. -/
def loadFlow (doc : Document) : Graph :=
  { nodes := doc.nodes.getD [], edges := doc.edges.getD [] }

/-- reactflow's `addEdge` helper as used by `onConnect` (App.tsx line 33):
a connection with an empty source or target is ignored, an edge duplicating
an existing source→target pair is not added again, and otherwise the edge
is appended.  No check against the node set is made. -/
def addEdge (params : Edge) (eds : List Edge) : List Edge :=
  if params.source = "" ∨ params.target = "" then eds
  else if params ∈ eds then eds
  else eds ++ [params]

/-- `onConnect` (App.tsx line 33): `setEdges((eds) => addEdge(params, eds))`. -/
def onConnect (params : Edge) (eds : List Edge) : List Edge :=
  addEdge params eds

/-- The initial graph state (App.tsx lines 18-20). -/
def initialNodes : List GNode :=
  [{ id := "1", data := NData.defaultD }]

/-- `addCodeNode` (App.tsx lines 35-43): the new id is
`(nodes.length + 1).toString()`. -/
def addCodeNode (nodes : List GNode) : List GNode :=
  nodes ++ [{ id := toString (nodes.length + 1), data := NData.codeD "// write JS here" }]

/-- `addArithmeticNode` (App.tsx lines 45-53). -/
def addArithmeticNode (nodes : List GNode) : List GNode :=
  nodes ++ [{ id := toString (nodes.length + 1),
              data := NData.arithD (JVal.num 0) (JVal.num 0) "+" none }]

/-- `addHttpNode` (App.tsx lines 55-63). -/
def addHttpNode (nodes : List GNode) : List GNode :=
  nodes ++ [{ id := toString (nodes.length + 1), data := NData.httpD "" "GET" none }]

/-- Deleting a node through the canvas (reactflow remove change applied by
`onNodesChange`): the node with the given id is removed from the list. -/
def deleteNode (id : String) (nodes : List GNode) : List GNode :=
  nodes.filter (fun n => n.id ≠ id)

end NodeEditor

namespace NodeEditor

/-! ### Basic facts about the map and counting helpers -/

theorem upd_self {α : Type} (m : String → α) (k : String) (v : α) : upd m k v k = v := by
  simp [upd]

theorem upd_of_ne {α : Type} (m : String → α) {k x : String} (v : α) (h : x ≠ k) :
    upd m k v x = m x := by
  simp [upd, h]

theorem adj_fold_apply (es : List Edge) (m : String → List String) (u : String) :
    (es.foldl (fun m e => upd m e.source (m e.source ++ [e.target])) m) u
      = m u ++ ((es.filter (fun e => e.source == u)).map (·.target)) := by
  induction es generalizing m with
  | nil => simp
  | cons e es ih =>
    simp only [List.foldl_cons, ih, List.filter_cons]
    by_cases h : e.source = u
    · subst h; simp [upd_self]
    · rw [upd_of_ne _ _ (Ne.symm h)]
      simp [h]

theorem indeg_fold_apply (es : List Edge) (m : String → Int) (v : String) :
    (es.foldl (fun m e => upd m e.target (m e.target + 1)) m) v
      = m v + (es.countP (fun e => e.target == v) : Int) := by
  induction es generalizing m with
  | nil => simp
  | cons e es ih =>
    simp only [List.foldl_cons, ih, List.countP_cons]
    by_cases h : e.target = v
    · subst h; simp [upd_self]; ring
    · rw [upd_of_ne _ _ (Ne.symm h)]
      simp [h]

theorem adjOf_apply (g : Graph) (u : String) :
    adjOf g u = (g.edges.filter (fun e => e.source == u)).map (·.target) := by
  simpa using adj_fold_apply g.edges (fun _ => []) u

theorem indeg0_apply (g : Graph) (v : String) :
    indeg0 g v = (g.edges.countP (fun e => e.target == v) : Int) := by
  simpa using indeg_fold_apply g.edges (fun _ => 0) v

/-- Number of edges from `u` to `v` (with multiplicity). -/
def srcCount (g : Graph) (u v : String) : Nat :=
  g.edges.countP (fun e => e.target == v && e.source == u)

theorem count_adjOf (g : Graph) (u v : String) :
    (adjOf g u).count v = srcCount g u v := by
  have hc : ∀ (l : List String), l.count v = l.countP (· == v) := fun _ => rfl
  rw [adjOf_apply, srcCount, hc, List.countP_map, List.countP_filter]
  apply List.countP_congr
  intro e _
  simp [Function.comp]

theorem mem_adjOf (g : Graph) (u v : String) :
    v ∈ adjOf g u ↔ ∃ e ∈ g.edges, e.source = u ∧ e.target = v := by
  simp only [adjOf_apply, List.mem_map, List.mem_filter, beq_iff_eq]
  constructor
  · rintro ⟨e, ⟨he, hs⟩, ht⟩; exact ⟨e, he, hs, ht⟩
  · rintro ⟨e, he, hs, ht⟩; exact ⟨e, ⟨he, hs⟩, ht⟩

/-- In-edges of `v` whose source has not yet been scheduled. -/
def remIn (g : Graph) (done : List String) (v : String) : Nat :=
  g.edges.countP (fun e => e.target == v && !(decide (e.source ∈ done)))

theorem countP_eq_add_of {α : Type} (l : List α) (p q r : α → Bool)
    (h : ∀ a ∈ l, p a = (q a || r a)) (hd : ∀ a ∈ l, ¬(q a = true ∧ r a = true)) :
    l.countP p = l.countP q + l.countP r := by
  induction l with
  | nil => simp
  | cons a l ih =>
    have hp := h a (List.mem_cons_self a l)
    have hd' := hd a (List.mem_cons_self a l)
    have ihl := ih (fun x hx => h x (List.mem_cons_of_mem a hx))
      (fun x hx => hd x (List.mem_cons_of_mem a hx))
    simp only [List.countP_cons, ihl]
    cases hq : q a <;> cases hr : r a <;> simp [hq, hr] at hp hd' ⊢ <;>
      simp [hp] <;> omega

theorem remIn_nil (g : Graph) (v : String) :
    (remIn g [] v : Int) = indeg0 g v := by
  rw [indeg0_apply, remIn]
  congr 1
  apply List.countP_congr
  intro e _
  simp

theorem remIn_append (g : Graph) (done : List String) (id v : String) (h : id ∉ done) :
    remIn g done v = remIn g (done ++ [id]) v + srcCount g id v := by
  apply countP_eq_add_of
  · intro e _
    by_cases ht : e.target = v <;> by_cases hs : e.source = id <;>
      by_cases hm : e.source ∈ done <;> simp_all
  · intro e _
    rintro ⟨h1, h2⟩
    simp at h1 h2
    exact h1.2.2 h2.2

end NodeEditor

namespace NodeEditor

/-! ### The inner relaxation pass -/

/-- Effect of one full pass of the inner loop (App.tsx lines 81-84) over a
target list `ts`: every occurrence of a target decrements its count, and a
target is appended to the queue exactly when its count reaches zero, which
happens iff its initial count is positive and equals its multiplicity in
`ts`.  Requires that queued nodes have count `0` and are not decremented,
and that no count is decremented below zero. -/
theorem pass_spec (ts : List String) (ind : String → Int) (q : List String)
    (h1 : ∀ v ∈ q, ind v = 0)
    (h2 : ∀ v ∈ q, v ∉ ts)
    (h3 : ∀ v, (ts.count v : Int) ≤ ind v) :
    ∃ newq : List String,
      (ts.foldl relax (ind, q)).2 = q ++ newq ∧
      newq.Nodup ∧
      (∀ v, v ∈ newq ↔ (v ∈ ts ∧ ind v = (ts.count v : Int) ∧ 0 < ind v)) ∧
      (∀ v, (ts.foldl relax (ind, q)).1 v = ind v - (ts.count v : Int)) := by
  induction ts generalizing ind q with
  | nil =>
    refine ⟨[], by simp, by simp, by simp, by simp⟩
  | cons t ts ih =>
    have hcount_cons_self : ((t :: ts).count t : Int) = (ts.count t : Int) + 1 := by
      rw [List.count_cons_self]; push_cast; ring
    have hcount_cons_ne : ∀ v, v ≠ t → ((t :: ts).count v : Int) = (ts.count v : Int) := by
      intro v hv; rw [List.count_cons_of_ne hv]
    by_cases hone : ind t = 1
    · -- the head target's count reaches zero: it is enqueued
      have hstep : relax (ind, q) t = (upd ind t (ind t - 1), q ++ [t]) := by
        simp [relax, upd_self, hone]
      have hcount_t : ts.count t = 0 := by
        have h3t := h3 t
        rw [hcount_cons_self] at h3t
        omega
      have tnotin : t ∉ ts := List.count_eq_zero.mp hcount_t
      have h1' : ∀ v ∈ q ++ [t], upd ind t (ind t - 1) v = 0 := by
        intro v hv
        rcases List.mem_append.mp hv with hv | hv
        · have hne : v ≠ t := fun h => (h2 v hv) (h ▸ List.mem_cons_self t ts)
          rw [upd_of_ne _ _ hne]; exact h1 v hv
        · have : v = t := by simpa using hv
          subst this; rw [upd_self]; omega
      have h2' : ∀ v ∈ q ++ [t], v ∉ ts := by
        intro v hv
        rcases List.mem_append.mp hv with hv | hv
        · exact fun hm => (h2 v hv) (List.mem_cons_of_mem t hm)
        · have : v = t := by simpa using hv
          subst this; exact tnotin
      have h3' : ∀ v, (ts.count v : Int) ≤ upd ind t (ind t - 1) v := by
        intro v
        by_cases hv : v = t
        · subst hv; rw [upd_self, hcount_t]; omega
        · rw [upd_of_ne _ _ hv]
          have := h3 v
          rw [hcount_cons_ne v hv] at this
          exact this
      obtain ⟨nq, hq, hnd, hmem, hind⟩ := ih (upd ind t (ind t - 1)) (q ++ [t]) h1' h2' h3'
      have hfold : (t :: ts).foldl relax (ind, q) = ts.foldl relax (upd ind t (ind t - 1), q ++ [t]) := by
        rw [List.foldl_cons, hstep]
      refine ⟨t :: nq, ?_, ?_, ?_, ?_⟩
      · rw [hfold, hq, List.append_assoc]; rfl
      · refine List.nodup_cons.mpr ⟨fun hmem' => ?_, hnd⟩
        exact tnotin ((hmem t).mp hmem').1
      · intro v
        by_cases hv : v = t
        · rw [hv]
          constructor
          · intro _
            exact ⟨List.mem_cons_self t ts, by omega, by omega⟩
          · intro _
            exact List.mem_cons_self t nq
        · constructor
          · intro hmem'
            have hmem'' : v ∈ nq := by
              rcases List.mem_cons.mp hmem' with h | h
              · exact absurd h hv
              · exact h
            obtain ⟨hv1, hv2, hv3⟩ := (hmem v).mp hmem''
            rw [upd_of_ne _ _ hv] at hv2 hv3
            exact ⟨List.mem_cons_of_mem t hv1, by rw [hcount_cons_ne v hv]; exact hv2, hv3⟩
          · rintro ⟨hv1, hv2, hv3⟩
            have hv1' : v ∈ ts := by
              rcases List.mem_cons.mp hv1 with h | h
              · exact absurd h hv
              · exact h
            refine List.mem_cons_of_mem t ((hmem v).mpr ⟨hv1', ?_, ?_⟩)
            · rw [upd_of_ne _ _ hv, ← hcount_cons_ne v hv]; exact hv2
            · rw [upd_of_ne _ _ hv]; exact hv3
      · intro v
        rw [hfold, hind v]
        by_cases hv : v = t
        · subst hv
          rw [upd_self, hcount_cons_self, hcount_t]
          omega
        · rw [upd_of_ne _ _ hv, hcount_cons_ne v hv]
    · -- the head target's count does not reach zero
      have hstep : relax (ind, q) t = (upd ind t (ind t - 1), q) := by
        have : ¬(ind t - 1 = 0) := by omega
        simp [relax, upd_self, this]
      have h1' : ∀ v ∈ q, upd ind t (ind t - 1) v = 0 := by
        intro v hv
        have hne : v ≠ t := fun h => (h2 v hv) (h ▸ List.mem_cons_self t ts)
        rw [upd_of_ne _ _ hne]; exact h1 v hv
      have h2' : ∀ v ∈ q, v ∉ ts :=
        fun v hv hm => (h2 v hv) (List.mem_cons_of_mem t hm)
      have h3' : ∀ v, (ts.count v : Int) ≤ upd ind t (ind t - 1) v := by
        intro v
        by_cases hv : v = t
        · rw [hv, upd_self]
          have h3t := h3 t
          rw [hcount_cons_self] at h3t
          omega
        · rw [upd_of_ne _ _ hv]
          have := h3 v
          rw [hcount_cons_ne v hv] at this
          exact this
      obtain ⟨nq, hq, hnd, hmem, hind⟩ := ih (upd ind t (ind t - 1)) q h1' h2' h3'
      have hfold : (t :: ts).foldl relax (ind, q) = ts.foldl relax (upd ind t (ind t - 1), q) := by
        rw [List.foldl_cons, hstep]
      refine ⟨nq, by rw [hfold]; exact hq, hnd, ?_, ?_⟩
      · intro v
        by_cases hv : v = t
        · rw [hv, hmem t]
          have h3t := h3 t
          rw [hcount_cons_self] at h3t
          constructor
          · rintro ⟨ht1, ht2, ht3⟩
            rw [upd_self] at ht2 ht3
            refine ⟨List.mem_cons_self t ts, ?_, ?_⟩
            · rw [hcount_cons_self]; omega
            · omega
          · rintro ⟨_, ht2, ht3⟩
            rw [hcount_cons_self] at ht2
            have hpos : 0 < ts.count t := by omega
            have htin : t ∈ ts := List.count_pos_iff.mp hpos
            refine ⟨htin, ?_, ?_⟩
            · rw [upd_self]; omega
            · rw [upd_self]; omega
        · rw [hmem v, upd_of_ne _ _ hv, hcount_cons_ne v hv]
          constructor
          · rintro ⟨hv1, hv2, hv3⟩
            exact ⟨List.mem_cons_of_mem t hv1, hv2, hv3⟩
          · rintro ⟨hv1, hv2, hv3⟩
            have hv1' : v ∈ ts := by
              rcases List.mem_cons.mp hv1 with h | h
              · exact absurd h hv
              · exact h
            exact ⟨hv1', hv2, hv3⟩
      · intro v
        rw [hfold, hind v]
        by_cases hv : v = t
        · subst hv
          rw [upd_self, hcount_cons_self]
          omega
        · rw [upd_of_ne _ _ hv, hcount_cons_ne v hv]

end NodeEditor

namespace NodeEditor

/-! ### The Kahn loop invariant -/

/-- Invariant of Kahn's loop state (queue `q`, in-degree map `ind`,
accumulated `order`). -/
structure KInv (g : Graph) (q : List String) (ind : String → Int) (order : List String) : Prop where
  nodup : (order ++ q).Nodup
  subset : ∀ v ∈ order ++ q, v ∈ nodeIds g
  indeg : ∀ v, ind v = (remIn g order v : Int)
  blocked : ∀ v ∈ nodeIds g, v ∉ order → v ∉ q → remIn g order v ≠ 0
  sources : ∀ e ∈ g.edges, e.target ∈ order ++ q → e.source ∈ order
  topo : ∀ e ∈ g.edges, e.target ∈ order → [e.source, e.target].Sublist order
  queued : ∀ v ∈ q, ind v = 0

theorem mem_initQueue (g : Graph) (v : String) :
    v ∈ initQueue g ↔ v ∈ nodeIds g ∧ indeg0 g v = 0 := by
  simp only [initQueue, nodeIds, List.mem_map, List.mem_filter, beq_iff_eq]
  constructor
  · rintro ⟨n, ⟨hn, hz⟩, rfl⟩
    exact ⟨⟨n, hn, rfl⟩, hz⟩
  · rintro ⟨⟨n, hn, rfl⟩, hz⟩
    exact ⟨n, ⟨hn, hz⟩, rfl⟩

theorem remIn_eq_zero_no_edge (g : Graph) (done : List String) (v : String)
    (h : remIn g done v = 0) :
    ∀ e ∈ g.edges, e.target = v → e.source ∈ done := by
  intro e he ht
  have := List.countP_eq_zero.mp h e he
  simp [ht] at this
  exact this

theorem KInv.init (g : Graph) (hn : (nodeIds g).Nodup) : KInv g (initQueue g) (indeg0 g) [] := by
  have hq0 : ∀ v ∈ initQueue g, indeg0 g v = 0 :=
    fun v hv => ((mem_initQueue g v).mp hv).2
  have hsub : initQueue g ⊆ nodeIds g :=
    fun v hv => ((mem_initQueue g v).mp hv).1
  have hnodup : (initQueue g).Nodup := by
    have hsl : ((g.nodes.filter (fun n => indeg0 g n.id == 0)).map (·.id)).Sublist
        (g.nodes.map (·.id)) :=
      List.Sublist.map (·.id) (List.filter_sublist g.nodes)
    exact hn.sublist hsl
  refine ⟨by simpa using hnodup, by simpa using hsub, ?_, ?_, ?_, by simp, hq0⟩
  · intro v
    rw [← remIn_nil]
  · intro v hv _ hq
    have : indeg0 g v ≠ 0 := fun hz => hq ((mem_initQueue g v).mpr ⟨hv, hz⟩)
    rw [← remIn_nil] at this
    exact_mod_cast fun hz => this (by exact_mod_cast congrArg (Nat.cast : Nat → Int) hz)
  · intro e he htgt
    simp only [List.nil_append] at htgt
    have hz : indeg0 g e.target = 0 := hq0 _ htgt
    rw [← remIn_nil] at hz
    have hz' : remIn g [] e.target = 0 := by exact_mod_cast hz
    exact absurd (remIn_eq_zero_no_edge g [] e.target hz' e he rfl) (by simp)

end NodeEditor

namespace NodeEditor

/-- Popping the head of the queue and relaxing its out-edges preserves the
loop invariant. -/
theorem KInv.step (g : Graph) (hv : ValidEdges g) (id : String) (rest : List String)
    (ind : String → Int) (order : List String)
    (inv : KInv g (id :: rest) ind order) :
    KInv g (((adjOf g id).foldl relax (ind, rest)).2)
      (((adjOf g id).foldl relax (ind, rest)).1) (order ++ [id]) := by
  have hid_not_order : id ∉ order := by
    intro h
    exact (List.nodup_append.mp inv.nodup).2.2 h (List.mem_cons_self id rest)
  have h1 : ∀ w ∈ rest, ind w = 0 :=
    fun w hw => inv.queued w (List.mem_cons_of_mem id hw)
  have h2 : ∀ w ∈ rest, w ∉ adjOf g id := by
    intro w hw hwa
    obtain ⟨e, he, hes, het⟩ := (mem_adjOf g id w).mp hwa
    have hsrc : e.source ∈ order := by
      apply inv.sources e he
      rw [het]
      exact List.mem_append.mpr (Or.inr (List.mem_cons_of_mem id hw))
    rw [hes] at hsrc
    exact hid_not_order hsrc
  have hcountle : ∀ w, srcCount g id w ≤ remIn g order w := by
    intro w
    apply List.countP_mono_left
    intro e _ hpe
    simp only [Bool.and_eq_true, beq_iff_eq] at hpe
    simp only [Bool.and_eq_true, beq_iff_eq, Bool.not_eq_true', decide_eq_false_iff_not]
    exact ⟨hpe.1, hpe.2 ▸ hid_not_order⟩
  have h3 : ∀ w, (((adjOf g id).count w : Int)) ≤ ind w := by
    intro w
    rw [count_adjOf, inv.indeg w]
    exact_mod_cast hcountle w
  obtain ⟨nq, hq2, hnqnd, hnqmem, hind'⟩ := pass_spec (adjOf g id) ind rest h1 h2 h3
  have hremsplit : ∀ w, remIn g order w = remIn g (order ++ [id]) w + srcCount g id w :=
    fun w => remIn_append g order id w hid_not_order
  have hind'' : ∀ w, ((adjOf g id).foldl relax (ind, rest)).1 w
      = (remIn g (order ++ [id]) w : Int) := by
    intro w
    rw [hind' w, inv.indeg w, count_adjOf]
    have := hremsplit w
    omega
  have hmem' : ∀ w, w ∈ nq ↔
      (w ∈ adjOf g id ∧ (remIn g order w : Int) = (srcCount g id w : Int)
        ∧ 0 < (remIn g order w : Int)) := by
    intro w
    rw [hnqmem w, count_adjOf, inv.indeg w]
  have hnq_not_order : ∀ w ∈ nq, w ∉ order := by
    intro w hw hword
    obtain ⟨e, he, hes, het⟩ := (mem_adjOf g id w).mp ((hmem' w).mp hw).1
    have hsrc : e.source ∈ order := by
      apply inv.sources e he
      rw [het]
      exact List.mem_append.mpr (Or.inl hword)
    rw [hes] at hsrc
    exact hid_not_order hsrc
  have hnq_not_q : ∀ w ∈ nq, w ∉ id :: rest := by
    intro w hw hwq
    have hz := inv.queued w hwq
    have hpos := ((hnqmem w).mp hw).2.2
    omega
  have hnq_rem0 : ∀ w ∈ nq, remIn g (order ++ [id]) w = 0 := by
    intro w hw
    have heq := ((hmem' w).mp hw).2.1
    have := hremsplit w
    omega
  have hnq_ids : ∀ w ∈ nq, w ∈ nodeIds g := by
    intro w hw
    obtain ⟨e, he, _, het⟩ := (mem_adjOf g id w).mp ((hmem' w).mp hw).1
    exact het ▸ (hv e he).2
  rw [hq2]
  refine ⟨?_, ?_, hind'', ?_, ?_, ?_, ?_⟩
  · -- nodup
    have hassoc : (order ++ [id]) ++ (rest ++ nq) = (order ++ id :: rest) ++ nq := by
      simp [List.append_assoc]
    rw [hassoc]
    refine List.Nodup.append inv.nodup hnqnd ?_
    intro a ha hanq
    rcases List.mem_append.mp ha with h | h
    · exact hnq_not_order a hanq h
    · exact hnq_not_q a hanq h
  · -- subset
    intro w hw
    rcases List.mem_append.mp hw with h | h
    · rcases List.mem_append.mp h with h | h
      · exact inv.subset w (List.mem_append.mpr (Or.inl h))
      · have : w = id := by simpa using h
        exact inv.subset w (List.mem_append.mpr (Or.inr (this ▸ List.mem_cons_self id rest)))
    · rcases List.mem_append.mp h with h | h
      · exact inv.subset w (List.mem_append.mpr (Or.inr (List.mem_cons_of_mem id h)))
      · exact hnq_ids w h
  · -- blocked
    intro w hwids hword' hwq'
    have hword : w ∉ order := fun h => hword' (List.mem_append.mpr (Or.inl h))
    have hwid : w ≠ id := by
      intro h
      exact hword' (List.mem_append.mpr (Or.inr (by simp [h])))
    have hwrest : w ∉ rest := fun h => hwq' (List.mem_append.mpr (Or.inl h))
    have hwnq : w ∉ nq := fun h => hwq' (List.mem_append.mpr (Or.inr h))
    have hold : remIn g order w ≠ 0 := by
      apply inv.blocked w hwids hword
      intro h
      rcases List.mem_cons.mp h with h | h
      · exact hwid h
      · exact hwrest h
    intro hzero
    have hsplit := hremsplit w
    have hsc_pos : 0 < srcCount g id w := by omega
    have hwadj : w ∈ adjOf g id := by
      have : 0 < (adjOf g id).count w := by rw [count_adjOf]; exact hsc_pos
      exact List.count_pos_iff.mp this
    have : w ∈ nq := (hmem' w).mpr ⟨hwadj, by omega, by omega⟩
    exact hwnq this
  · -- sources
    intro e he htgt
    rcases List.mem_append.mp htgt with h | h
    · rcases List.mem_append.mp h with h | h
      · exact List.mem_append.mpr (Or.inl (inv.sources e he (List.mem_append.mpr (Or.inl h))))
      · have : e.target = id := by simpa using h
        refine List.mem_append.mpr (Or.inl (inv.sources e he ?_))
        exact List.mem_append.mpr (Or.inr (this ▸ List.mem_cons_self id rest))
    · rcases List.mem_append.mp h with h | h
      · exact List.mem_append.mpr
          (Or.inl (inv.sources e he (List.mem_append.mpr (Or.inr (List.mem_cons_of_mem id h)))))
      · exact remIn_eq_zero_no_edge g (order ++ [id]) e.target (hnq_rem0 _ h) e he rfl
  · -- topo
    intro e he htgt
    rcases List.mem_append.mp htgt with h | h
    · exact (inv.topo e he h).trans (List.sublist_append_left order [id])
    · have htid : e.target = id := by simpa using h
      have hsrc : e.source ∈ order := by
        apply inv.sources e he
        exact List.mem_append.mpr (Or.inr (htid ▸ List.mem_cons_self id rest))
      rw [htid]
      exact List.Sublist.append (List.singleton_sublist.mpr hsrc) (List.Sublist.refl [id])
  · -- queued
    intro w hw
    rcases List.mem_append.mp hw with h | h
    · rw [hind' w]
      have hc : (adjOf g id).count w = 0 := List.count_eq_zero.mpr (h2 w h)
      rw [hc]
      have := h1 w h
      omega
    · rw [hind'' w, hnq_rem0 w h]
      simp

end NodeEditor

namespace NodeEditor

/-- Fuel `|nodes|` always suffices: the loop drains the queue and the
invariant holds of the final state. -/
theorem kahnLoop_inv (g : Graph) (hv : ValidEdges g) :
    ∀ (fuel : Nat) (q : List String) (ind : String → Int) (order : List String),
      KInv g q ind order →
      (nodeIds g).length ≤ fuel + order.length →
      ∃ ord' ind', kahnLoop (adjOf g) fuel q ind order = (ord', []) ∧ KInv g [] ind' ord' := by
  intro fuel
  induction fuel with
  | zero =>
    intro q ind order inv hlen
    have hsub : (order ++ q) ⊆ nodeIds g := fun v hv' => inv.subset v hv'
    have hle : (order ++ q).length ≤ (nodeIds g).length :=
      (inv.nodup.subperm hsub).length_le
    rw [List.length_append] at hle
    have hq : q = [] := List.length_eq_zero.mp (by omega)
    subst hq
    exact ⟨order, ind, rfl, inv⟩
  | succ fuel ih =>
    intro q ind order inv hlen
    match q with
    | [] => exact ⟨order, ind, rfl, inv⟩
    | id :: rest =>
      have hstep := KInv.step g hv id rest ind order inv
      have hlen' : (nodeIds g).length ≤ fuel + (order ++ [id]).length := by
        rw [List.length_append]
        simp only [List.length_singleton]
        omega
      obtain ⟨ord', ind', heq, hinv⟩ := ih _ _ _ hstep hlen'
      exact ⟨ord', ind', heq, hinv⟩

/-- The final state of `kahnRun`: empty queue and the invariant at the
computed order. -/
theorem kahnRun_spec (g : Graph) (hn : (nodeIds g).Nodup) (hv : ValidEdges g) :
    (kahnRun g).2 = [] ∧ ∃ ind', KInv g [] ind' (kahnOrder g) := by
  obtain ⟨ord', ind', heq, hinv⟩ :=
    kahnLoop_inv g hv g.nodes.length (initQueue g) (indeg0 g) [] (KInv.init g hn)
      (by simp [nodeIds])
  have hrun : kahnRun g = (ord', []) := heq
  constructor
  · rw [hrun]
  · exact ⟨ind', by rw [kahnOrder, hrun]; exact hinv⟩

theorem kahnOrder_nodup (g : Graph) (hn : (nodeIds g).Nodup) (hv : ValidEdges g) :
    (kahnOrder g).Nodup := by
  obtain ⟨-, ind', hinv⟩ := kahnRun_spec g hn hv
  simpa using hinv.nodup

theorem kahnOrder_subset (g : Graph) (hn : (nodeIds g).Nodup) (hv : ValidEdges g) :
    ∀ v ∈ kahnOrder g, v ∈ nodeIds g := by
  obtain ⟨-, ind', hinv⟩ := kahnRun_spec g hn hv
  intro v hv'
  exact hinv.subset v (by simpa using hv')

theorem kahnOrder_topo (g : Graph) (hn : (nodeIds g).Nodup) (hv : ValidEdges g) :
    ∀ e ∈ g.edges, e.target ∈ kahnOrder g → [e.source, e.target].Sublist (kahnOrder g) := by
  obtain ⟨-, ind', hinv⟩ := kahnRun_spec g hn hv
  exact hinv.topo

theorem kahnOrder_blocked (g : Graph) (hn : (nodeIds g).Nodup) (hv : ValidEdges g) :
    ∀ v ∈ nodeIds g, v ∉ kahnOrder g → remIn g (kahnOrder g) v ≠ 0 := by
  obtain ⟨-, ind', hinv⟩ := kahnRun_spec g hn hv
  intro v hv' hno
  exact hinv.blocked v hv' hno (by simp)

end NodeEditor

namespace NodeEditor

/-! ### Cycles and the scheduled order -/

/-- In a duplicate-free list, the occurs-before relation given by
two-element sublists is transitive. -/
theorem sublist_pair_trans {α : Type} {l : List α} (hl : l.Nodup) :
    ∀ {a b c : α}, [a, b].Sublist l → [b, c].Sublist l → [a, c].Sublist l := by
  induction l with
  | nil =>
    intro a b c h1 _
    have ha : a ∈ ([] : List α) := h1.subset (List.mem_cons_self a [b])
    simp at ha
  | cons x l ih =>
    intro a b c h1 h2
    have hx : x ∉ l := (List.nodup_cons.mp hl).1
    have hl' : l.Nodup := (List.nodup_cons.mp hl).2
    cases h1 with
    | cons _ h1' =>
      have hb : b ∈ l := h1'.subset (List.mem_cons_of_mem a (List.mem_cons_self b []))
      cases h2 with
      | cons _ h2' => exact (ih hl' h1' h2').cons x
      | cons₂ _ h2' => exact absurd hb hx
    | cons₂ _ h1' =>
      cases h2 with
      | cons _ h2' =>
        have hc : c ∈ l := h2'.subset (List.mem_cons_of_mem b (List.mem_cons_self c []))
        exact (List.singleton_sublist.mpr hc).cons₂ x
      | cons₂ _ h2' => exact absurd (List.singleton_sublist.mp h1') hx

/-- A path in the graph is reflected as an occurs-before fact in any
duplicate-free list satisfying the edge-ordering property. -/
theorem transGen_pair_sublist (g : Graph) (l : List String) (hl : l.Nodup)
    (htopo : ∀ e ∈ g.edges, e.target ∈ l → [e.source, e.target].Sublist l) :
    ∀ u w, Relation.TransGen (hasEdge g) u w → w ∈ l → [u, w].Sublist l := by
  intro u w htg
  induction htg with
  | single hedge =>
    rename_i b
    intro hb
    obtain ⟨e, he, hs, ht⟩ := hedge
    have := htopo e he (by rw [ht]; exact hb)
    rw [hs, ht] at this
    exact this
  | tail htg' hedge ih =>
    rename_i b c
    intro hc
    obtain ⟨e, he, hs, ht⟩ := hedge
    have hbc : [b, c].Sublist l := by
      have := htopo e he (by rw [ht]; exact hc)
      rw [hs, ht] at this
      exact this
    have hb : b ∈ l := hbc.subset (by simp)
    exact sublist_pair_trans hl (ih hb) hbc

/-- A node lying on a cycle never enters the computed order. -/
theorem cyclic_not_in_kahnOrder (g : Graph) (hn : (nodeIds g).Nodup) (hv : ValidEdges g)
    (v : String) (hc : Relation.TransGen (hasEdge g) v v) : v ∉ kahnOrder g := by
  intro hmem
  have hnd := kahnOrder_nodup g hn hv
  have hpair := transGen_pair_sublist g (kahnOrder g) hnd (kahnOrder_topo g hn hv) v v hc hmem
  have : ([v, v] : List String).Nodup := hpair.nodup hnd
  simp at this

/-- If every node satisfying `P` has a `P`-predecessor, and `P` holds
somewhere, the graph has a cycle (pigeonhole over the finite node set). -/
theorem cycle_of_pred (g : Graph) (P : String → Prop)
    (hfin : ∀ v, P v → v ∈ nodeIds g)
    (hstep : ∀ v, P v → ∃ u, P u ∧ hasEdge g u v)
    (v0 : String) (h0 : P v0) :
    ∃ w, Relation.TransGen (hasEdge g) w w := by
  classical
  have hch : ∀ v, ∃ u, P v → (P u ∧ hasEdge g u v) := by
    intro v
    by_cases h : P v
    · obtain ⟨u, hu⟩ := hstep v h
      exact ⟨u, fun _ => hu⟩
    · exact ⟨v0, fun hc => absurd hc h⟩
  choose f hf using hch
  set seq : ℕ → String := fun n => f^[n] v0 with hseq_def
  have hseqP : ∀ n, P (seq n) := by
    intro n
    induction n with
    | zero => exact h0
    | succ n ihn =>
      have : seq (n + 1) = f (seq n) := Function.iterate_succ_apply' f n v0
      rw [this]
      exact (hf (seq n) ihn).1
  have hseqE : ∀ n, hasEdge g (seq (n + 1)) (seq n) := by
    intro n
    have : seq (n + 1) = f (seq n) := Function.iterate_succ_apply' f n v0
    rw [this]
    exact (hf (seq n) (hseqP n)).2
  have hTG : ∀ n d, Relation.TransGen (hasEdge g) (seq (n + d + 1)) (seq n) := by
    intro n d
    induction d with
    | zero => exact Relation.TransGen.single (hseqE n)
    | succ d ihd =>
      have hstep' : hasEdge g (seq (n + d + 2)) (seq (n + d + 1)) := hseqE (n + d + 1)
      have : n + (d + 1) + 1 = n + d + 2 := by omega
      rw [this]
      exact Relation.TransGen.head hstep' ihd
  have hmemfin : ∀ n, seq n ∈ (nodeIds g).toFinset := by
    intro n
    rw [List.mem_toFinset]
    exact hfin (seq n) (hseqP n)
  obtain ⟨i, j, hij, heq⟩ :=
    Finite.exists_ne_map_eq_of_infinite (fun n : ℕ => (⟨seq n, hmemfin n⟩ : {x // x ∈ (nodeIds g).toFinset}))
  have heq' : seq i = seq j := congrArg Subtype.val heq
  have key : ∀ i j : ℕ, i < j → seq i = seq j → ∃ w, Relation.TransGen (hasEdge g) w w := by
    intro i j hlt hseq
    refine ⟨seq i, ?_⟩
    have hd : j = i + (j - i - 1) + 1 := by omega
    have htg := hTG i (j - i - 1)
    rw [← hd] at htg
    rw [← hseq] at htg
    exact htg
  rcases Nat.lt_or_ge i j with hlt | hge
  · exact key i j hlt heq'
  · have hlt : j < i := by omega
    exact key j i hlt heq'.symm

/-- On an acyclic graph, every node enters the computed order. -/
theorem kahnOrder_complete (g : Graph) (hn : (nodeIds g).Nodup) (hv : ValidEdges g)
    (hacyc : Acyclic g) : ∀ v ∈ nodeIds g, v ∈ kahnOrder g := by
  intro v hvids
  by_contra hno
  have hstep : ∀ w, (w ∈ nodeIds g ∧ w ∉ kahnOrder g) →
      ∃ u, (u ∈ nodeIds g ∧ u ∉ kahnOrder g) ∧ hasEdge g u w := by
    rintro w ⟨hwids, hwno⟩
    have hne := kahnOrder_blocked g hn hv w hwids hwno
    have hpos : 0 < remIn g (kahnOrder g) w := Nat.pos_of_ne_zero hne
    rw [remIn] at hpos
    obtain ⟨e, he, hpe⟩ := List.countP_pos_iff.mp hpos
    simp only [Bool.and_eq_true, beq_iff_eq, Bool.not_eq_true', decide_eq_false_iff_not] at hpe
    refine ⟨e.source, ⟨(hv e he).1, hpe.2⟩, e, he, rfl, hpe.1⟩
  obtain ⟨w, hw⟩ :=
    cycle_of_pred g (fun x => x ∈ nodeIds g ∧ x ∉ kahnOrder g)
      (fun x hx => hx.1) hstep v ⟨hvids, hno⟩
  exact hacyc w hw

/-- On an acyclic graph the computed order is a permutation of the node
ids. -/
theorem kahnOrder_perm (g : Graph) (hn : (nodeIds g).Nodup) (hv : ValidEdges g)
    (hacyc : Acyclic g) : (kahnOrder g).Perm (nodeIds g) := by
  refine (List.perm_ext_iff_of_nodup (kahnOrder_nodup g hn hv) hn).mpr ?_
  intro a
  exact ⟨fun h => kahnOrder_subset g hn hv a h, fun h => kahnOrder_complete g hn hv hacyc a h⟩

/-- A strictly edge-increasing rank certifies acyclicity. -/
theorem acyclic_of_rank (g : Graph) (rank : String → Nat)
    (h : ∀ e ∈ g.edges, rank e.source < rank e.target) : Acyclic g := by
  have mono : ∀ u v, Relation.TransGen (hasEdge g) u v → rank u < rank v := by
    intro u v htg
    induction htg with
    | single hedge =>
      obtain ⟨e, he, hs, ht⟩ := hedge
      rw [← hs, ← ht]
      exact h e he
    | tail htg' hedge ih =>
      obtain ⟨e, he, hs, ht⟩ := hedge
      have := h e he
      rw [hs, ht] at this
      omega
  intro v hc
  exact lt_irrefl (rank v) (mono v v hc)

end NodeEditor

namespace NodeEditor

/-! ### Execution-loop lemmas -/

/-- Executing a node never changes its id. -/
theorem execNode_id (eff : Effects) (n n' : GNode) (h : execNode eff n = Except.ok n') :
    n'.id = n.id := by
  obtain ⟨i, d⟩ := n
  cases d with
  | codeD c =>
    simp only [execNode] at h
    cases hs : eff.script c <;> rw [hs] at h <;> injection h with h <;> rw [← h]
  | arithD a b op r =>
    simp only [execNode] at h
    cases hj : jsBinop op a b with
    | none => rw [hj] at h; cases h
    | some v => rw [hj] at h; injection h with h; rw [← h]
  | httpD url method resp =>
    simp only [execNode] at h
    cases hf : eff.fetch url method <;> rw [hf] at h <;> injection h with h <;> rw [← h]
  | defaultD =>
    simp only [execNode] at h
    injection h with h
    rw [← h]

/-- Replacing the node carrying `id` does not affect lookups of other
ids. -/
theorem find?_replaceNode_of_ne (ns : List GNode) (id v : String) (n' : GNode)
    (hid : n'.id = id) (hne : v ≠ id) :
    (replaceNode ns id n').find? (fun m => m.id == v) = ns.find? (fun m => m.id == v) := by
  induction ns with
  | nil => rfl
  | cons m ms ih =>
    by_cases hm : m.id = id
    · have h1 : (if m.id = id then n' else m) = n' := by simp [hm]
      simp only [replaceNode, List.map_cons, h1, List.find?_cons]
      have h2 : (n'.id == v) = false := by
        rw [hid]
        exact beq_false_of_ne (fun h => hne h.symm)
      have h3 : (m.id == v) = false := by
        rw [hm]
        exact beq_false_of_ne (fun h => hne h.symm)
      rw [h2, h3]
      exact ih
    · have h1 : (if m.id = id then n' else m) = m := by simp [hm]
      simp only [replaceNode, List.map_cons, h1, List.find?_cons]
      cases hmv : (m.id == v)
      · exact ih
      · rfl

/-- Replacing preserves the id list. -/
theorem nodeIds_replaceNode (ns : List GNode) (id : String) (n' : GNode) (hid : n'.id = id) :
    (replaceNode ns id n').map (·.id) = ns.map (·.id) := by
  induction ns with
  | nil => rfl
  | cons m ms ih =>
    simp only [replaceNode, List.map_cons] at ih ⊢
    by_cases hm : m.id = id
    · simp [hm, hid, ih]
    · simp [hm, ih]

/-- Replacing an absent id is the identity. -/
theorem replaceNode_of_not_mem (ns : List GNode) (id : String) (n' : GNode)
    (h : id ∉ ns.map (·.id)) : replaceNode ns id n' = ns := by
  induction ns with
  | nil => rfl
  | cons m ms ih =>
    simp only [List.map_cons, List.mem_cons] at h
    push_neg at h
    simp only [replaceNode, List.map_cons]
    rw [if_neg (fun hh => h.1 hh.symm)]
    have := ih h.2
    simp only [replaceNode] at this
    rw [this]

/-- Replacing the found node by itself is the identity (given unique
ids). -/
theorem replaceNode_self (ns : List GNode) (id : String) (n : GNode)
    (hnd : (ns.map (·.id)).Nodup) (hfind : ns.find? (fun m => m.id == id) = some n) :
    replaceNode ns id n = ns := by
  induction ns with
  | nil => simp at hfind
  | cons m ms ih =>
    simp only [List.map_cons, List.nodup_cons] at hnd
    rw [List.find?_cons] at hfind
    cases hmv : (m.id == id) with
    | true =>
      rw [hmv] at hfind
      have hmn : m = n := by simpa using hfind
      have hmid : m.id = id := beq_iff_eq.mp hmv
      simp only [replaceNode, List.map_cons]
      rw [if_pos hmid, hmn]
      have hnot : id ∉ ms.map (·.id) := by
        rw [← hmid]
        exact hnd.1
      have := replaceNode_of_not_mem ms id n hnot
      simp only [replaceNode] at this
      rw [this]
    | false =>
      rw [hmv] at hfind
      have hmid : m.id ≠ id := by simpa using hmv
      simp only [replaceNode, List.map_cons]
      rw [if_neg hmid]
      have := ih hnd.2 hfind
      simp only [replaceNode] at this
      rw [this]

/-- Ids not named in the schedule keep their node untouched. -/
theorem runOrder_find?_of_not_mem (eff : Effects) (ids : List String) (ns ns' : List GNode)
    (v : String) (hv : v ∉ ids) (h : runOrder eff ids ns = Except.ok ns') :
    ns'.find? (fun m => m.id == v) = ns.find? (fun m => m.id == v) := by
  induction ids generalizing ns with
  | nil =>
    simp only [runOrder] at h
    cases h
    rfl
  | cons id rest ih =>
    have hvne : v ≠ id := fun hh => hv (hh ▸ List.mem_cons_self id rest)
    have hvrest : v ∉ rest := fun hh => hv (List.mem_cons_of_mem id hh)
    simp only [runOrder] at h
    split at h
    · exact ih ns hvrest h
    · rename_i n hfind
      split at h
      · simp at h
      · rename_i n' hexec
        have hid' : n'.id = id := by
          rw [execNode_id eff n n' hexec]
          have hpn := List.find?_some hfind
          simpa using hpn
        have := ih (replaceNode ns id n') hvrest h
        rw [this, find?_replaceNode_of_ne ns id v n' hid' hvne]

/-- A node whose id is outside the Kahn order is returned unchanged by
`executeFlow`. -/
theorem executeFlow_getNode_of_not_mem (eff : Effects) (g g' : Graph) (v : String)
    (hv : v ∉ kahnOrder g) (h : executeFlow eff g = Except.ok g') :
    getNode g' v = getNode g v := by
  unfold executeFlow at h
  cases hrun : runOrder eff (kahnOrder g) g.nodes with
  | error msg => rw [hrun] at h; cases h
  | ok ns =>
    rw [hrun] at h
    cases h
    exact runOrder_find?_of_not_mem eff (kahnOrder g) g.nodes ns v hv hrun

end NodeEditor

namespace NodeEditor

/-- Executing a code node leaves it unchanged whether or not the script
throws (the failure is only logged, App.tsx line 92). -/
theorem execNode_code (eff : Effects) (n : GNode) (c : String) (hd : n.data = NData.codeD c) :
    execNode eff n = Except.ok n := by
  obtain ⟨i, d⟩ := n
  simp only at hd
  subst hd
  simp only [execNode]
  cases eff.script c <;> rfl

/-- Node execution depends only on the fetch oracle, never on script
outcomes. -/
theorem execNode_fetch_congr (eff₁ eff₂ : Effects) (hf : eff₁.fetch = eff₂.fetch) (n : GNode) :
    execNode eff₁ n = execNode eff₂ n := by
  obtain ⟨i, d⟩ := n
  cases d with
  | codeD c =>
    simp only [execNode]
    cases eff₁.script c <;> cases eff₂.script c <;> rfl
  | arithD a b op r => rfl
  | httpD url method resp => simp only [execNode, hf]
  | defaultD => rfl

/-- The whole execution loop depends only on the fetch oracle. -/
theorem runOrder_fetch_congr (eff₁ eff₂ : Effects) (hf : eff₁.fetch = eff₂.fetch) :
    ∀ (ids : List String) (ns : List GNode), runOrder eff₁ ids ns = runOrder eff₂ ids ns := by
  intro ids
  induction ids with
  | nil => intro ns; rfl
  | cons id rest ih =>
    intro ns
    simp only [runOrder]
    cases hfind : ns.find? (fun n => n.id == id) with
    | none => exact ih ns
    | some n =>
      simp only [execNode_fetch_congr eff₁ eff₂ hf n]
      cases execNode eff₂ n with
      | error msg => rfl
      | ok n' => exact ih (replaceNode ns id n')

/-- A code node is returned unchanged by the execution loop (given unique
ids). -/
theorem runOrder_code_unchanged (eff : Effects) (ids : List String) :
    ∀ (ns ns' : List GNode) (v : String) (n : GNode) (c : String),
      (ns.map (·.id)).Nodup →
      ns.find? (fun m => m.id == v) = some n →
      n.data = NData.codeD c →
      runOrder eff ids ns = Except.ok ns' →
      ns'.find? (fun m => m.id == v) = some n := by
  induction ids with
  | nil =>
    intro ns ns' v n c hnd hfind hdata h
    simp only [runOrder] at h
    cases h
    exact hfind
  | cons id rest ih =>
    intro ns ns' v n c hnd hfind hdata h
    simp only [runOrder] at h
    split at h
    · exact ih ns ns' v n c hnd hfind hdata h
    · rename_i m hm
      split at h
      · simp at h
      · rename_i m' hexec
        have hmid : m.id = id := by simpa using List.find?_some hm
        have hm'id : m'.id = id := by rw [execNode_id eff m m' hexec, hmid]
        by_cases hvid : v = id
        · subst hvid
          rw [hm] at hfind
          have hmn : m = n := Option.some.inj hfind
          have hok : execNode eff m = Except.ok n := by
            rw [hmn]
            exact execNode_code eff n c hdata
          have hm'n : m' = n := by
            rw [hok] at hexec
            exact (Except.ok.inj hexec).symm
          have hfind' : ns.find? (fun m => m.id == v) = some n := hmn ▸ hm
          have hrepl : replaceNode ns v n = ns := replaceNode_self ns v n hnd hfind'
          rw [hm'n, hrepl] at h
          exact ih ns ns' v n c hnd hfind' hdata h
        · have hnd₁ : ((replaceNode ns id m').map (·.id)).Nodup := by
            rw [nodeIds_replaceNode ns id m' hm'id]
            exact hnd
          have hfind₁ : (replaceNode ns id m').find? (fun m => m.id == v) = some n := by
            rw [find?_replaceNode_of_ne ns id v m' hm'id hvid]
            exact hfind
          exact ih (replaceNode ns id m') ns' v n c hnd₁ hfind₁ hdata h

end NodeEditor

namespace NodeEditor

/-! ### Concrete instances used by counterexamples and witnesses -/

/-- The chain graph A→B→C of the spec's testable property. -/
def chainABC : Graph :=
  { nodes := [⟨"A", NData.defaultD⟩, ⟨"B", NData.defaultD⟩, ⟨"C", NData.defaultD⟩],
    edges := [⟨"A", "B"⟩, ⟨"B", "C"⟩] }

/-- A graph with an arithmetic node A and a two-node cycle B→C→B. -/
def cycGraph : Graph :=
  { nodes := [⟨"A", NData.arithD (JVal.num 6) (JVal.num 3) "*" none⟩,
              ⟨"B", NData.defaultD⟩, ⟨"C", NData.defaultD⟩],
    edges := [⟨"B", "C"⟩, ⟨"C", "B"⟩] }

/-- A code node whose script throws, followed by an arithmetic node. -/
def scriptGraph : Graph :=
  { nodes := [⟨"S", NData.codeD "throw 1"⟩,
              ⟨"T", NData.arithD (JVal.num 6) (JVal.num 3) "*" none⟩],
    edges := [⟨"S", "T"⟩] }

/-- Effects where scripts succeed and fetches succeed with an empty body. -/
def effOk : Effects :=
  { script := fun _ => none, fetch := fun _ _ => FetchOutcome.success "" }

/-- Effects where every script throws and every fetch fails. -/
def effThrow : Effects :=
  { script := fun _ => some "boom", fetch := fun _ _ => FetchOutcome.failure "boom" }

/-- Effects with the same fetch oracle as `effThrow` but quiet scripts. -/
def effQuiet : Effects :=
  { script := fun _ => none, fetch := fun _ _ => FetchOutcome.failure "boom" }

end NodeEditor

namespace NodeEditor

/-- C7: for every acyclic graph (with unique node ids and valid edge
endpoints), the Kahn order computed by `executeFlow` contains every node
exactly once (it is a permutation of the node-id list), every edge's
source precedes its target in the order, and — determinism being immediate
since `kahnOrder` is a function of the graph, with zero-indegree ties
broken by node-declaration order through the FIFO queue — the chain A→B→C
is ordered exactly [A, B, C]. -/
theorem claim_C7 (g : Graph) (hn : (nodeIds g).Nodup) (hv : ValidEdges g)
    (hacyc : Acyclic g) :
    (kahnOrder g).Perm (nodeIds g) ∧
    (∀ e ∈ g.edges, [e.source, e.target].Sublist (kahnOrder g)) ∧
    kahnOrder chainABC = ["A", "B", "C"] := by
  refine ⟨kahnOrder_perm g hn hv hacyc, ?_, by decide⟩
  intro e he
  have htgt : e.target ∈ kahnOrder g :=
    kahnOrder_complete g hn hv hacyc e.target (hv e he).2
  exact kahnOrder_topo g hn hv e he htgt

/-- Witness for C7 at the concrete chain graph. -/
theorem claim_C7_witness :
    (kahnOrder chainABC).Perm (nodeIds chainABC) ∧
    (∀ e ∈ chainABC.edges, [e.source, e.target].Sublist (kahnOrder chainABC)) ∧
    kahnOrder chainABC = ["A", "B", "C"] :=
  claim_C7 chainABC (by decide) (by unfold ValidEdges; decide)
    (acyclic_of_rank chainABC
      (fun s => if s = "A" then 0 else if s = "B" then 1 else 2) (by decide))

/-- C8: executing an arithmetic node with operands 6 and 3 and operator
`*` stores 18 as the result; the node's data carries no error field and no
error is recorded (the source's arithmetic `data` has no `lastError`
member, so it is null in the sense of absent). -/
theorem claim_C8 (eff : Effects) (i : String) (r : Option JVal) :
    execNode eff ⟨i, NData.arithD (JVal.num 6) (JVal.num 3) "*" r⟩
      = Except.ok ⟨i, NData.arithD (JVal.num 6) (JVal.num 3) "*" (some (JVal.num 18))⟩ := by
  have h18 : JVal.jmul (JVal.num 6) (JVal.num 3) = JVal.num 18 := by
    simp only [JVal.jmul, JVal.num.injEq]
    norm_num
  simp +decide [execNode, jsBinop, h18]

/-- C10: on every graph with unique node ids and valid edge endpoints —
cyclic ones included — Kahn's loop terminates within `|nodes|` iterations:
the final queue is empty, each node is popped (hence was enqueued) at most
once, and the order length is at most the node count. -/
theorem claim_C10 (g : Graph) (hn : (nodeIds g).Nodup) (hv : ValidEdges g) :
    (kahnRun g).2 = [] ∧ (kahnOrder g).Nodup ∧ (kahnOrder g).length ≤ g.nodes.length := by
  obtain ⟨hq, ind', hinv⟩ := kahnRun_spec g hn hv
  refine ⟨hq, by simpa using hinv.nodup, ?_⟩
  have hsub : kahnOrder g ⊆ nodeIds g := fun v hv' => hinv.subset v (by simpa using hv')
  have hnd : (kahnOrder g).Nodup := by simpa using hinv.nodup
  have := (hnd.subperm hsub).length_le
  rw [nodeIds, List.length_map] at this
  exact this

/-- Witness for C10 at the concrete cyclic graph. -/
theorem claim_C10_witness :
    (kahnRun cycGraph).2 = [] ∧ (kahnOrder cycGraph).Nodup ∧
    (kahnOrder cycGraph).length ≤ cycGraph.nodes.length :=
  claim_C10 cycGraph (by decide) (by unfold ValidEdges; decide)

end NodeEditor

namespace NodeEditor

/-- C1 counterexample: on the graph with arithmetic node A and cycle
B→C→B, `executeFlow` does not return any cycle error — it succeeds — and
it executes A, overwriting its `result` (which was previously null), so
neither "returns a CycleDetected error" nor "executes zero nodes" holds of
the code. -/
theorem claim_C1_counterexample :
    executeFlow effOk cycGraph =
      Except.ok { nodes := [⟨"A", NData.arithD (JVal.num 6) (JVal.num 3) "*" (some (JVal.num 18))⟩,
                            ⟨"B", NData.defaultD⟩, ⟨"C", NData.defaultD⟩],
                  edges := [⟨"B", "C"⟩, ⟨"C", "B"⟩] } ∧
    getNode cycGraph "A" = some ⟨"A", NData.arithD (JVal.num 6) (JVal.num 3) "*" none⟩ := by
  constructor
  · simp +decide [executeFlow, kahnOrder, kahnRun, kahnLoop, initQueue, indeg0, adjOf, upd,
      relax, runOrder, execNode, jsBinop, replaceNode, JVal.jmul, cycGraph, effOk, List.foldl,
      List.filter, List.find?]
    norm_num
  · rfl

/-- C1 amended: on a graph containing a cycle, `executeFlow` raises no
cycle error; it executes exactly the Kahn order, which omits every node
lying on a cycle, and such a node's entry in the graph is returned
unchanged while the acyclic remainder is executed normally. -/
theorem claim_C1_amended (g : Graph) (v : String) (hn : (nodeIds g).Nodup)
    (hv : ValidEdges g) (hc : Relation.TransGen (hasEdge g) v v) :
    v ∉ kahnOrder g ∧
    ∀ (eff : Effects) (g' : Graph), executeFlow eff g = Except.ok g' →
      getNode g' v = getNode g v := by
  have hno := cyclic_not_in_kahnOrder g hn hv v hc
  exact ⟨hno, fun eff g' h => executeFlow_getNode_of_not_mem eff g g' v hno h⟩

/-- Witness for the amended C1 at the concrete cyclic graph. -/
theorem claim_C1_witness :
    "B" ∉ kahnOrder cycGraph ∧
    ∀ (eff : Effects) (g' : Graph), executeFlow eff cycGraph = Except.ok g' →
      getNode g' "B" = getNode cycGraph "B" :=
  claim_C1_amended cycGraph "B" (by decide) (by unfold ValidEdges; decide)
    (Relation.TransGen.head ⟨⟨"B", "C"⟩, by decide, rfl, rfl⟩
      (Relation.TransGen.single ⟨⟨"C", "B"⟩, by decide, rfl, rfl⟩))

/-- C2 counterexample: an arithmetic node `{a:4, b:0, op:div}` executes to
`result = Infinity`; no division-by-zero error is produced (the node data
has no `lastError` field at all) and the infinite value is stored as the
numeric result, which the claim says never happens. -/
theorem claim_C2_counterexample :
    execNode effOk ⟨"D", NData.arithD (JVal.num 4) (JVal.num 0) "/" none⟩
      = Except.ok ⟨"D", NData.arithD (JVal.num 4) (JVal.num 0) "/" (some JVal.inf)⟩ := by
  have hdiv : JVal.jdiv (JVal.num 4) (JVal.num 0) = JVal.inf := by
    simp only [JVal.jdiv]
    norm_num
  simp +decide [execNode, jsBinop, hdiv]

/-- C2 amended: dividing by zero stores the JS quotient as the result —
`Infinity` for positive a, `-Infinity` for negative a, `NaN` for 0/0 — and
records no error anywhere (the source's arithmetic data has no `lastError`
field). -/
theorem claim_C2_amended (eff : Effects) (i : String) (a : ℚ) (r : Option JVal) :
    execNode eff ⟨i, NData.arithD (JVal.num a) (JVal.num 0) "/" r⟩
      = Except.ok ⟨i, NData.arithD (JVal.num a) (JVal.num 0) "/"
          (some (JVal.jdiv (JVal.num a) (JVal.num 0)))⟩ ∧
    JVal.jdiv (JVal.num a) (JVal.num 0)
      = if a = 0 then JVal.nan else if 0 < a then JVal.inf else JVal.negInf := by
  constructor
  · simp +decide [execNode, jsBinop]
  · simp [JVal.jdiv]

end NodeEditor

namespace NodeEditor

/-- C3 counterexample: an http node whose fetch fails with message "boom"
has its `response` overwritten with that message (App.tsx line 101 puts
`e.message` into `response`): the previous response "old" is not left
unchanged, and no `lastError` field exists to receive the message. -/
theorem claim_C3_counterexample :
    execNode effThrow ⟨"H", NData.httpD "http://x" "GET" (some "old")⟩
      = Except.ok ⟨"H", NData.httpD "http://x" "GET" (some "boom")⟩ ∧
    effThrow.fetch "http://x" "GET" = FetchOutcome.failure "boom" :=
  ⟨rfl, rfl⟩

/-- C3 amended: on any transport failure the error message is stored into
the node's `response` field, overwriting its previous value; the source's
http data has no `lastError` field. -/
theorem claim_C3_amended (eff : Effects) (i url method : String) (resp : Option String)
    (msg : String) (h : eff.fetch url method = FetchOutcome.failure msg) :
    execNode eff ⟨i, NData.httpD url method resp⟩
      = Except.ok ⟨i, NData.httpD url method (some msg)⟩ := by
  simp [execNode, h]

/-- Witness for the amended C3 at a concrete failing fetch. -/
theorem claim_C3_witness :
    effThrow.fetch "http://y" "POST" = FetchOutcome.failure "boom" ∧
    execNode effThrow ⟨"K", NData.httpD "http://y" "POST" none⟩
      = Except.ok ⟨"K", NData.httpD "http://y" "POST" (some "boom")⟩ :=
  ⟨rfl, claim_C3_amended effThrow "K" "http://y" "POST" none "boom" rfl⟩

/-- C4 counterexample: the script of code node S throws (with message
"boom"), yet S is returned entirely unchanged — the message is stored
nowhere on the node, there being no `lastError` field — while the flow
continues and executes the downstream arithmetic node T. -/
theorem claim_C4_counterexample :
    effThrow.script "throw 1" = some "boom" ∧
    executeFlow effThrow scriptGraph =
      Except.ok { nodes := [⟨"S", NData.codeD "throw 1"⟩,
                            ⟨"T", NData.arithD (JVal.num 6) (JVal.num 3) "*" (some (JVal.num 18))⟩],
                  edges := [⟨"S", "T"⟩] } := by
  refine ⟨rfl, ?_⟩
  simp +decide [executeFlow, kahnOrder, kahnRun, kahnLoop, initQueue, indeg0, adjOf, upd,
    relax, runOrder, execNode, jsBinop, replaceNode, JVal.jmul, scriptGraph, effThrow,
    List.foldl, List.filter, List.find?]
  norm_num

/-- C4 amended: a throwing script is caught and discarded (only logged):
the run result does not depend on script outcomes at all, every code node
comes back unchanged (given unique ids), and the flow never aborts on a
script failure. -/
theorem claim_C4_amended (g : Graph) (eff eff' : Effects) (hf : eff.fetch = eff'.fetch) :
    executeFlow eff g = executeFlow eff' g ∧
    (∀ (v : String) (n : GNode) (c : String) (g' : Graph),
      (nodeIds g).Nodup → getNode g v = some n → n.data = NData.codeD c →
      executeFlow eff g = Except.ok g' → getNode g' v = some n) := by
  constructor
  · unfold executeFlow
    rw [runOrder_fetch_congr eff eff' hf (kahnOrder g) g.nodes]
  · intro v n c g' hnd hget hdata hrun
    unfold executeFlow at hrun
    split at hrun
    · rename_i ns hro
      injection hrun with hrun
      subst hrun
      exact runOrder_code_unchanged eff (kahnOrder g) g.nodes ns v n c hnd hget hdata hro
    · cases hrun

/-- Witness for the amended C4: replacing throwing scripts by quiet ones
(same fetch oracle) leaves the run result identical. -/
theorem claim_C4_witness :
    effThrow.fetch = effQuiet.fetch ∧
    executeFlow effThrow scriptGraph = executeFlow effQuiet scriptGraph :=
  ⟨rfl, (claim_C4_amended scriptGraph effThrow effQuiet rfl).1⟩

/-- C5 counterexample: loading a document with a `nodes` key but no
`edges` key silently produces the graph with zero edges — exactly the
defaulting the claim says never happens; no FormatError exists in the
code. -/
theorem claim_C5_counterexample :
    loadFlow { nodes := some [⟨"1", NData.defaultD⟩], edges := none }
      = { nodes := [⟨"1", NData.defaultD⟩], edges := [] } :=
  rfl

/-- C5 amended: `loadFlow` accepts every document, defaulting a missing
(or null) `nodes` or `edges` field to the empty collection and taking a
present field verbatim; it never surfaces an error. -/
theorem claim_C5_amended (doc : Document) :
    (doc.nodes = none → (loadFlow doc).nodes = []) ∧
    (doc.edges = none → (loadFlow doc).edges = []) ∧
    (∀ ns, doc.nodes = some ns → (loadFlow doc).nodes = ns) ∧
    (∀ es, doc.edges = some es → (loadFlow doc).edges = es) := by
  refine ⟨?_, ?_, ?_, ?_⟩
  · intro h; simp [loadFlow, h]
  · intro h; simp [loadFlow, h]
  · intro ns h; simp [loadFlow, h]
  · intro es h; simp [loadFlow, h]

/-- Witness for the amended C5 at a concrete document missing `edges`. -/
theorem claim_C5_witness :
    ({ nodes := some [⟨"1", NData.defaultD⟩], edges := none } : Document).edges = none ∧
    (loadFlow { nodes := some [⟨"1", NData.defaultD⟩], edges := none }).edges = [] :=
  ⟨rfl, (claim_C5_amended { nodes := some [⟨"1", NData.defaultD⟩], edges := none }).2.1 rfl⟩

/-- C6 counterexample: connecting the edge 1→ghost, whose target matches
no node, silently adds it to the edge list, and loading a document whose
edge list dangles keeps the dangling edge verbatim; neither operation
surfaces any structural error. -/
theorem claim_C6_counterexample :
    onConnect ⟨"1", "ghost"⟩ [] = [⟨"1", "ghost"⟩] ∧
    "ghost" ∉ nodeIds { nodes := [⟨"1", NData.defaultD⟩], edges := [] } ∧
    (loadFlow { nodes := some [⟨"1", NData.defaultD⟩],
                edges := some [⟨"1", "ghost"⟩] }).edges = [⟨"1", "ghost"⟩] := by
  refine ⟨by decide, by decide, rfl⟩

/-- C6 amended: `onConnect` accepts any connection with nonempty endpoint
strings without consulting the node set (dangling edges are silently
accepted, deduplicated only against existing edges), and `loadFlow` keeps
a present edge list verbatim without endpoint validation. -/
theorem claim_C6_amended (params : Edge) (eds : List Edge) (doc : Document) (es : List Edge)
    (hs : params.source ≠ "") (ht : params.target ≠ "") :
    params ∈ onConnect params eds ∧ (doc.edges = some es → (loadFlow doc).edges = es) := by
  constructor
  · unfold onConnect addEdge
    rw [if_neg (by push_neg; exact ⟨hs, ht⟩)]
    by_cases hmem : params ∈ eds
    · rw [if_pos hmem]; exact hmem
    · rw [if_neg hmem]
      exact List.mem_append.mpr (Or.inr (List.mem_cons_self params []))
  · intro h; simp [loadFlow, h]

/-- Witness for the amended C6 at the concrete dangling connection. -/
theorem claim_C6_witness :
    (⟨"1", "ghost"⟩ : Edge).source ≠ "" ∧ (⟨"1", "ghost"⟩ : Edge).target ≠ "" ∧
    ((⟨"1", "ghost"⟩ : Edge) ∈ onConnect ⟨"1", "ghost"⟩ [] ∧
      (({ nodes := some [⟨"1", NData.defaultD⟩], edges := some [⟨"1", "ghost"⟩] } : Document).edges
          = some [⟨"1", "ghost"⟩] →
        (loadFlow { nodes := some [⟨"1", NData.defaultD⟩],
                    edges := some [⟨"1", "ghost"⟩] }).edges = [⟨"1", "ghost"⟩])) := by
  refine ⟨by decide, by decide, ?_⟩
  exact claim_C6_amended ⟨"1", "ghost"⟩ []
    { nodes := some [⟨"1", NData.defaultD⟩], edges := some [⟨"1", "ghost"⟩] }
    [⟨"1", "ghost"⟩] (by decide) (by decide)

/-- C9 counterexample: ids are generated as `(nodes.length + 1).toString()`,
so adding a code node, deleting node 1 and adding another code node
produces two nodes both carrying id 2: the uniqueness invariant is not
preserved by add after delete. -/
theorem claim_C9_counterexample :
    (addCodeNode (deleteNode "1" (addCodeNode initialNodes))).map (·.id) = ["2", "2"] ∧
    ¬ ((addCodeNode (deleteNode "1" (addCodeNode initialNodes))).map (·.id)).Nodup := by
  refine ⟨by decide, by decide⟩

/-- C9 amended: an add-node operation preserves id uniqueness exactly when
the generated id `(length + 1).toString()` is not already present — which
holds for pure add sequences from the initial graph but can fail after a
delete. -/
theorem claim_C9_amended (nodes : List GNode)
    (hnd : (nodes.map (·.id)).Nodup)
    (hfresh : toString (nodes.length + 1) ∉ nodes.map (·.id)) :
    ((addCodeNode nodes).map (·.id)).Nodup ∧
    ((addArithmeticNode nodes).map (·.id)).Nodup ∧
    ((addHttpNode nodes).map (·.id)).Nodup := by
  have key : ∀ (d : NData),
      ((nodes ++ [(⟨toString (nodes.length + 1), d⟩ : GNode)]).map (·.id)).Nodup := by
    intro d
    rw [List.map_append]
    refine hnd.append (by simp) ?_
    intro x hx hx'
    simp only [List.map_cons, List.map_nil, List.mem_singleton] at hx'
    subst hx'
    exact hfresh hx
  exact ⟨key _, key _, key _⟩

/-- Witness for the amended C9 at the initial graph. -/
theorem claim_C9_witness :
    ((initialNodes.map (·.id)).Nodup ∧
      toString (initialNodes.length + 1) ∉ initialNodes.map (·.id)) ∧
    ((addCodeNode initialNodes).map (·.id)).Nodup ∧
    ((addArithmeticNode initialNodes).map (·.id)).Nodup ∧
    ((addHttpNode initialNodes).map (·.id)).Nodup :=
  ⟨⟨by decide, by decide⟩, claim_C9_amended initialNodes (by decide) (by decide)⟩

end NodeEditor
